import Mathlib

/-!
Verification development for the `ls` helper of the datalad repository
(`datalad/interface/ls.py`).

The development shallowly embeds the parts of `ls.py` that the checked
properties concern:

* the size/unit converter (`machinesize`, and the rendering side
  `humanize.naturalsize`, which is an external library and therefore
  modelled from the spec's description of the unit ladder);
* the filesystem metadata extraction (`FsModel.size`, `FsModel.type_`,
  `fs_extract`, `leaf_name`, `ignored`);
* the recursive directory traversal with size roll-up (`fs_traverse`);
* the dataset traversal (`_ds_traverse`);
* the per-entry formatting of the flat dataset listing
  (`format_ds_model`, `_ls_dataset`).

Modelling conventions:

* paths are lists of path components (`List String`); `opj path name`
  is `path ++ [name]`;
* the filesystem is a finite tree (`FsTree`); each node carries the
  data `lstat` would report (size, mtime).  A symbolic link carries
  `none` when broken and `some sz` when its resolved target exists and
  has on-disk size `sz` (symlinked directories are not followed, as in
  the source, where `islink` is checked before `isdir`);
* the repository handle (`AnnexRepo`/`GitRepo`) is a record of the
  queries `ls.py` performs against it (`RepoH`);
* Python floats are modelled as rationals (`ℚ`);
* Python dictionaries holding one value per size category are modelled
  as functions `SizeCat → Option HSize`, `none` meaning "key absent";
* the humanized size strings stored in the records are modelled by
  their information content `HSize` (value in tenths, unit index),
  matching the one-decimal rendering of the unit ladder;
* mutation of the `parent` dictionary performed by `fs_traverse`
  (`parent['name'] = '..'`) is modelled by state passing: `fs_traverse`
  returns the parent record as it is after the call;
* rendering (`fs_render`, the `json` mode) is pure output and is not
  modelled; it does not affect any returned value.
-/

namespace DataladLs

/-- Size categories of the `sizes` dictionary built by `FsModel.size`:
`total`, `ondisk`, `git`, `annex`, `annex_worktree`. -/
inductive SizeCat where
  | total
  | ondisk
  | git
  | annex
  | annexWorktree
  deriving DecidableEq, Repr

/-- Information content of a humanized size string `"<d>.<t> <unit>"`:
the numeric part in tenths and the index of the unit in the ladder
Bytes, kB, MB, GB, TB, PB. -/
structure HSize where
  tenths : ℕ
  unit : ℕ
  deriving DecidableEq, Repr

/-- Modelled from the spec: unit selection of the external
`humanize.naturalsize` as the spec describes it — a fixed ladder of
units (Bytes, kB, MB, GB, TB, PB), each step a factor of 1024; the
greatest unit not exceeding the value is chosen, capped at PB. -/
def unitIdx (b : ℚ) : ℕ :=
  if b < 1024 then 0
  else if b < 1024 ^ 2 then 1
  else if b < 1024 ^ 3 then 2
  else if b < 1024 ^ 4 then 3
  else if b < 1024 ^ 5 then 4
  else 5

/-- Modelled from the spec: the external `humanize.naturalsize`
(`humanize(bytes) -> string`), rendering a byte count on the 1024
ladder with one decimal of precision.  The rendered string `"x.y U"`
is represented by its information content: the number of tenths
(rounded to nearest) and the unit index. -/
def naturalsizeH (b : ℚ) : HSize :=
  ⟨(⌊10 * b / 1024 ^ unitIdx b + 1 / 2⌋).toNat, unitIdx b⟩

/-- Numeric value of a humanized size, as computed by `machinesize` of
the source on a well-formed string: `float(size_str) * 1024 ** k`. -/
def machinesizeH (h : HSize) : ℚ := (h.tenths : ℚ) / 10 * 1024 ^ h.unit

/-! Arithmetic facts about the unit ladder and the lossy round trip. -/

theorem unitIdx_le_five (b : ℚ) : unitIdx b ≤ 5 := by
  unfold unitIdx
  split_ifs <;> norm_num

theorem pow_le_of_unitIdx_one (b : ℚ) (h : 1 ≤ unitIdx b) :
    (1024 : ℚ) ^ unitIdx b ≤ b := by
  unfold unitIdx at h ⊢
  split_ifs at h ⊢ with h1 h2 h3 h4 h5
  · norm_num at h
  · push_neg at h1; norm_num at h1 ⊢; linarith
  · push_neg at h2; norm_num at h2 ⊢; linarith
  · push_neg at h3; norm_num at h3 ⊢; linarith
  · push_neg at h4; norm_num at h4 ⊢; linarith
  · push_neg at h5; norm_num at h5 ⊢; linarith

theorem lt_pow_of_unitIdx_lt (b : ℚ) (h : unitIdx b < 5) :
    b < 1024 ^ (unitIdx b + 1) := by
  unfold unitIdx at h ⊢
  split_ifs at h ⊢ with h1 h2 h3 h4 h5
  · norm_num at h1 ⊢; linarith
  · norm_num at h2 ⊢; linarith
  · norm_num at h3 ⊢; linarith
  · norm_num at h4 ⊢; linarith
  · norm_num at h5 ⊢; linarith
  · norm_num at h

theorem unitIdx_of_lt (v : ℚ) (h : v < 1024) : unitIdx v = 0 := by
  unfold unitIdx
  rw [if_pos h]

theorem unitIdx_of_ge_top (v : ℚ) (h : (1024 : ℚ) ^ 5 ≤ v) : unitIdx v = 5 := by
  have h1 : ¬ v < 1024 := by norm_num at h ⊢; linarith
  have h2 : ¬ v < 1024 ^ 2 := by norm_num at h ⊢; linarith
  have h3 : ¬ v < 1024 ^ 3 := by norm_num at h ⊢; linarith
  have h4 : ¬ v < 1024 ^ 4 := by norm_num at h ⊢; linarith
  have h5 : ¬ v < 1024 ^ 5 := by norm_num at h ⊢; linarith
  unfold unitIdx
  rw [if_neg h1, if_neg h2, if_neg h3, if_neg h4, if_neg h5]

theorem unitIdx_of_between (v : ℚ) (k : ℕ) (hk1 : 1 ≤ k) (hk4 : k ≤ 4)
    (hlo : (1024 : ℚ) ^ k ≤ v) (hhi : v < 1024 ^ (k + 1)) : unitIdx v = k := by
  interval_cases k
  · have h1 : ¬ v < 1024 := by norm_num at hlo ⊢; linarith
    have h2 : v < 1024 ^ 2 := by norm_num at hhi ⊢; linarith
    unfold unitIdx
    rw [if_neg h1, if_pos h2]
  · have h1 : ¬ v < 1024 := by norm_num at hlo ⊢; linarith
    have h2 : ¬ v < 1024 ^ 2 := by norm_num at hlo ⊢; linarith
    have h3 : v < 1024 ^ 3 := by norm_num at hhi ⊢; linarith
    unfold unitIdx
    rw [if_neg h1, if_neg h2, if_pos h3]
  · have h1 : ¬ v < 1024 := by norm_num at hlo ⊢; linarith
    have h2 : ¬ v < 1024 ^ 2 := by norm_num at hlo ⊢; linarith
    have h3 : ¬ v < 1024 ^ 3 := by norm_num at hlo ⊢; linarith
    have h4 : v < 1024 ^ 4 := by norm_num at hhi ⊢; linarith
    unfold unitIdx
    rw [if_neg h1, if_neg h2, if_neg h3, if_pos h4]
  · have h1 : ¬ v < 1024 := by norm_num at hlo ⊢; linarith
    have h2 : ¬ v < 1024 ^ 2 := by norm_num at hlo ⊢; linarith
    have h3 : ¬ v < 1024 ^ 3 := by norm_num at hlo ⊢; linarith
    have h4 : ¬ v < 1024 ^ 4 := by norm_num at hlo ⊢; linarith
    have h5 : v < 1024 ^ 5 := by norm_num at hhi ⊢; linarith
    unfold unitIdx
    rw [if_neg h1, if_neg h2, if_neg h3, if_neg h4, if_pos h5]

theorem machinesizeH_nonneg (h : HSize) : 0 ≤ machinesizeH h := by
  unfold machinesizeH
  positivity

theorem natural_tenths_nonneg (b : ℚ) (hb : 0 ≤ b) :
    0 ≤ ⌊10 * b / 1024 ^ unitIdx b + 1 / 2⌋ := by
  have hx : (0 : ℚ) ≤ 10 * b / 1024 ^ unitIdx b + 1 / 2 := by positivity
  exact Int.floor_nonneg.mpr hx

/-- Exactness of the round trip whenever the rendered quantity
`10 * b / 1024 ^ k` is an integer: no precision is lost by the
one-decimal rendering. -/
theorem machinesizeH_naturalsizeH_of_int (b : ℚ) (hb : 0 ≤ b) (n : ℤ)
    (hn : 10 * b / 1024 ^ unitIdx b = (n : ℚ)) :
    machinesizeH (naturalsizeH b) = b := by
  have hpow : (0 : ℚ) < 1024 ^ unitIdx b := by positivity
  have hn0 : 0 ≤ n := by
    have hq : (0 : ℚ) ≤ (n : ℚ) := by
      rw [← hn]; positivity
    exact_mod_cast hq
  unfold machinesizeH naturalsizeH
  simp only
  rw [hn]
  have hfl : ⌊(n : ℚ) + 1 / 2⌋ = n := by
    rw [add_comm, Int.floor_add_int]
    norm_num
  rw [hfl]
  have hcast : ((n.toNat : ℕ) : ℚ) = (n : ℚ) := by
    exact_mod_cast congrArg (fun z : ℤ => (z : ℚ)) (Int.toNat_of_nonneg hn0)
  rw [hcast, ← hn]
  field_simp
  ring

/-- The lossy round trip is off by at most half a tenth of the selected
unit, hence in particular by at most one unit step. -/
theorem machinesizeH_naturalsizeH_close (b : ℚ) (hb : 0 ≤ b) :
    |machinesizeH (naturalsizeH b) - b| ≤ 1024 ^ (naturalsizeH b).unit := by
  have hpow : (0 : ℚ) < 1024 ^ unitIdx b := by positivity
  have ht0 := natural_tenths_nonneg b hb
  have h1 : (⌊10 * b / 1024 ^ unitIdx b + 1 / 2⌋ : ℚ) ≤ 10 * b / 1024 ^ unitIdx b + 1 / 2 :=
    Int.floor_le _
  have h2 : 10 * b / 1024 ^ unitIdx b + 1 / 2 - 1 < (⌊10 * b / 1024 ^ unitIdx b + 1 / 2⌋ : ℚ) :=
    Int.sub_one_lt_floor _
  have hcast : ((⌊10 * b / 1024 ^ unitIdx b + 1 / 2⌋.toNat : ℕ) : ℚ)
      = (⌊10 * b / 1024 ^ unitIdx b + 1 / 2⌋ : ℚ) := by
    exact_mod_cast congrArg (fun z : ℤ => (z : ℚ)) (Int.toNat_of_nonneg ht0)
  have hb' : b = (10 * b / 1024 ^ unitIdx b) * 1024 ^ unitIdx b / 10 := by
    field_simp
  unfold machinesizeH naturalsizeH
  simp only
  rw [hcast]
  rw [abs_le]
  constructor
  · nlinarith [hpow, h1, h2]
  · nlinarith [hpow, h1, h2]

/-- Re-humanizing a value that is already the machine value of a
humanized size does not change the machine value: the second rendering
is exact.  This is the key fact behind the dataset-level re-aggregation
in `_ds_traverse`, which machinizes and re-humanizes sizes produced by
`fs_traverse`. -/
theorem machinesizeH_naturalsizeH_stable (b : ℚ) (hb : 0 ≤ b) :
    machinesizeH (naturalsizeH (machinesizeH (naturalsizeH b)))
      = machinesizeH (naturalsizeH b) := by
  have hk5 : unitIdx b ≤ 5 := unitIdx_le_five b
  have hpow : (0 : ℚ) < 1024 ^ unitIdx b := by positivity
  have ht0 : 0 ≤ ⌊10 * b / 1024 ^ unitIdx b + 1 / 2⌋ := natural_tenths_nonneg b hb
  set t : ℤ := ⌊10 * b / 1024 ^ unitIdx b + 1 / 2⌋ with htdef
  have hcast : ((t.toNat : ℕ) : ℚ) = (t : ℚ) := by
    exact_mod_cast congrArg (fun z : ℤ => (z : ℚ)) (Int.toNat_of_nonneg ht0)
  have hveq : machinesizeH (naturalsizeH b) = (t : ℚ) / 10 * 1024 ^ unitIdx b := by
    have hraw : machinesizeH (naturalsizeH b)
        = ((⌊10 * b / 1024 ^ unitIdx b + 1 / 2⌋.toNat : ℕ) : ℚ) / 10 * 1024 ^ unitIdx b := rfl
    rw [hraw, ← htdef, hcast]
  rcases eq_or_lt_of_le hk5 with hk5e | hk5l
  · have h1k : 1 ≤ unitIdx b := by omega
    have hble := pow_le_of_unitIdx_one b h1k
    have hy10 : (10 : ℚ) ≤ 10 * b / 1024 ^ unitIdx b := by
      rw [le_div_iff hpow]; nlinarith
    have ht10 : (10 : ℤ) ≤ t := by
      rw [htdef]
      exact Int.le_floor.mpr (by push_cast; linarith)
    have htq : (1 : ℚ) ≤ (t : ℚ) / 10 := by
      rw [le_div_iff (by norm_num : (0:ℚ) < 10)]
      norm_num
      exact_mod_cast ht10
    have hvge : (1024 : ℚ) ^ 5 ≤ machinesizeH (naturalsizeH b) := by
      rw [hveq, ← hk5e]
      nlinarith
    have hu : unitIdx (machinesizeH (naturalsizeH b)) = 5 := unitIdx_of_ge_top _ hvge
    apply machinesizeH_naturalsizeH_of_int _ (machinesizeH_nonneg _) t
    rw [hu, hveq, ← hk5e]
    field_simp
  · have hblt := lt_pow_of_unitIdx_lt b hk5l
    have hylt : 10 * b / 1024 ^ unitIdx b < 10240 := by
      rw [div_lt_iff hpow]
      rw [pow_succ] at hblt
      nlinarith
    have htle : t ≤ 10240 := by
      have hlt : 10 * b / 1024 ^ unitIdx b + 1 / 2 < ((10241 : ℤ) : ℚ) := by
        push_cast; linarith
      have hfl := Int.floor_lt.mpr hlt
      rw [htdef]
      omega
    rcases eq_or_lt_of_le htle with hteq | htlt
    · have hveq2 : machinesizeH (naturalsizeH b) = 1024 ^ (unitIdx b + 1) := by
        rw [hveq, hteq]
        push_cast
        rw [pow_succ]
        ring
      have hu : unitIdx (machinesizeH (naturalsizeH b)) = unitIdx b + 1 := by
        by_cases hk4 : unitIdx b + 1 ≤ 4
        · apply unitIdx_of_between _ _ (by omega) hk4
          · rw [hveq2]
          · rw [hveq2]
            have hone : (1 : ℚ) < 1024 := by norm_num
            exact pow_lt_pow_right₀ hone (by omega)
        · have hfive : unitIdx b + 1 = 5 := by omega
          rw [hfive]
          apply unitIdx_of_ge_top
          rw [hveq2, hfive]
      apply machinesizeH_naturalsizeH_of_int _ (machinesizeH_nonneg _) 10
      rw [hu, hveq2]
      have hp : (1024 : ℚ) ^ (unitIdx b + 1) ≠ 0 := by positivity
      field_simp
    · by_cases hk0 : unitIdx b = 0
      · have htq : (t : ℚ) < 10240 := by exact_mod_cast htlt
        have hvlt : machinesizeH (naturalsizeH b) < 1024 := by
          rw [hveq, hk0]
          norm_num
          linarith
        have hu := unitIdx_of_lt _ hvlt
        apply machinesizeH_naturalsizeH_of_int _ (machinesizeH_nonneg _) t
        rw [hu, hveq, hk0]
        norm_num
        ring
      · have h1k : 1 ≤ unitIdx b := by omega
        have hble := pow_le_of_unitIdx_one b h1k
        have hy10 : (10 : ℚ) ≤ 10 * b / 1024 ^ unitIdx b := by
          rw [le_div_iff hpow]; nlinarith
        have ht10 : (10 : ℤ) ≤ t := by
          rw [htdef]
          exact Int.le_floor.mpr (by push_cast; linarith)
        have htq : (1 : ℚ) ≤ (t : ℚ) / 10 := by
          rw [le_div_iff (by norm_num : (0:ℚ) < 10)]
          norm_num
          exact_mod_cast ht10
        have hvge : (1024 : ℚ) ^ unitIdx b ≤ machinesizeH (naturalsizeH b) := by
          rw [hveq]
          nlinarith
        have hvlt : machinesizeH (naturalsizeH b) < 1024 ^ (unitIdx b + 1) := by
          rw [hveq, pow_succ]
          have htq2 : (t : ℚ) < 10240 := by exact_mod_cast htlt
          nlinarith
        have hu := unitIdx_of_between _ _ h1k (by omega) hvge hvlt
        apply machinesizeH_naturalsizeH_of_int _ (machinesizeH_nonneg _) t
        rw [hu, hveq]
        field_simp

/-! String-level size parsing (`machinesize` of the source).

Python strings are modelled as `List Char`.  `humansize.split(" ")`
splits on every single space character, keeping empty pieces, which is
what `splitSp` does.  Python's `float(...)` on strings is modelled by
`pyFloat` over the grammar of finite decimal literals
`[sign] (digits [. digits] | . digits) [(e|E) [sign] digits]`;
the special spellings `inf`/`nan`, embedded underscores and surrounding
whitespace accepted by Python are outside the model (they cannot name a
finite numeric value, or cannot appear in a piece produced by a split
on spaces in the inputs of interest). -/

/-- Model of Python `s.split(" ")` on character lists: split at every
space, keeping empty pieces (`"".split(" ") == ['']`). -/
def splitSp : List Char → List (List Char)
  | [] => [[]]
  | c :: t =>
      if c = ' ' then [] :: splitSp t
      else
        match splitSp t with
        | [] => [[c]]
        | h :: r => (c :: h) :: r

theorem splitSp_ne_nil (s : List Char) : splitSp s ≠ [] := by
  induction s with
  | nil => simp [splitSp]
  | cons c t ih =>
      unfold splitSp
      split_ifs
      · simp
      · cases hsp : splitSp t <;> simp

/-- Splitting yields a single piece exactly for space-free input. -/
theorem splitSp_single (s u : List Char) :
    splitSp s = [u] ↔ s = u ∧ ' ' ∉ u := by
  induction s generalizing u with
  | nil =>
      simp only [splitSp]
      constructor
      · rintro h
        simp at h
        subst h
        simp
      · rintro ⟨h, _⟩
        subst h
        rfl
  | cons c t ih =>
      unfold splitSp
      split_ifs with hc
      · subst hc
        constructor
        · rintro h
          exact absurd (List.cons.injEq _ _ _ _ ▸ h) (by
            simp
            intro h1
            exact splitSp_ne_nil t)
        · rintro ⟨h, hnmem⟩
          subst h
          simp at hnmem
      · cases hsp : splitSp t with
        | nil => exact absurd hsp (splitSp_ne_nil t)
        | cons h r =>
            constructor
            · rintro heq
              simp at heq
              obtain ⟨hu, hr⟩ := heq
              subst hr
              have := (ih h).mp hsp
              obtain ⟨ht, hmem⟩ := this
              subst ht
              subst hu
              refine ⟨rfl, ?_⟩
              intro hmm
              rcases List.mem_cons.mp hmm with h1 | h2
              · exact hc h1.symm
              · exact hmem h2
            · rintro ⟨hu, hnmem⟩
              subst hu
              simp at hnmem
              obtain ⟨hc', hmem⟩ := hnmem
              have := (ih t).mpr ⟨rfl, hmem⟩
              rw [this] at hsp
              simp at hsp
              obtain ⟨h1, h2⟩ := hsp
              subst h1
              subst h2
              rfl

/-- Splitting yields exactly two pieces for input of the shape
`a ++ " " ++ u` with space-free `a` and `u`. -/
theorem splitSp_pair (s a u : List Char) :
    splitSp s = [a, u] ↔ s = a ++ ' ' :: u ∧ ' ' ∉ a ∧ ' ' ∉ u := by
  induction s generalizing a with
  | nil =>
      simp only [splitSp]
      constructor
      · rintro h
        simp at h
      · rintro ⟨h, _, _⟩
        exact absurd h (by simp)
  | cons c t ih =>
      unfold splitSp
      split_ifs with hc
      · subst hc
        constructor
        · rintro heq
          simp at heq
          obtain ⟨ha, hu⟩ := heq
          subst ha
          obtain ⟨ht, hmem⟩ := (splitSp_single t u).mp hu
          subst ht
          simp [hmem]
        · rintro ⟨heq, hna, hnu⟩
          cases a with
          | nil =>
              simp at heq
              subst heq
              simp
              exact (splitSp_single t t).mpr ⟨rfl, hnu⟩
          | cons x xs =>
              simp at heq
              obtain ⟨hx, _⟩ := heq
              subst hx
              simp at hna
      · cases hsp : splitSp t with
        | nil => exact absurd hsp (splitSp_ne_nil t)
        | cons h r =>
            constructor
            · rintro heq
              simp at heq
              obtain ⟨ha, hr⟩ := heq
              subst hr
              have := (ih h).mp hsp
              obtain ⟨ht, hmema, hmemu⟩ := this
              subst ht
              subst ha
              refine ⟨rfl, ?_, hmemu⟩
              intro hmm
              rcases List.mem_cons.mp hmm with h1 | h2
              · exact hc h1.symm
              · exact hmema h2
            · rintro ⟨heq, hna, hnu⟩
              cases a with
              | nil =>
                  simp at heq
                  obtain ⟨hx, _⟩ := heq
                  exact absurd hx hc
              | cons x xs =>
                  simp at heq
                  obtain ⟨hx, ht⟩ := heq
                  subst hx
                  simp at hna
                  obtain ⟨hxc, hmema⟩ := hna
                  have := (ih xs).mpr ⟨ht, hmema, hnu⟩
                  rw [this] at hsp
                  simp at hsp
                  obtain ⟨h1, h2⟩ := hsp
                  subst h1
                  subst h2
                  rfl

def isDigitCh (c : Char) : Bool := '0' ≤ c && c ≤ '9'

/-- Numeric value of a digit run (most significant first). -/
def digitsVal (l : List Char) : ℕ := l.foldl (fun a c => 10 * a + (c.toNat - 48)) 0

/-- Result of Python `float(...)`: a finite value, an infinity, or
NaN — `float()` accepts the spellings `inf`/`infinity`/`nan` besides
decimal literals, and those non-finite values flow through the
arithmetic of `machinesize` without raising. -/
inductive PyF where
  | finite (q : ℚ)
  | pinf
  | ninf
  | nan
  deriving DecidableEq, Repr

/-- Multiplication by a positive finite factor, as in
`float(size_str) * (1024 ** k)`: infinities keep their sign, NaN
absorbs. -/
def PyF.scale (v : PyF) (p : ℚ) : PyF :=
  match v with
  | .finite q => .finite (q * p)
  | x => x

/-- The whitespace code points Python strips around the argument of
`float()` (the `Py_UNICODE_ISSPACE` set). -/
def isPySpace (c : Char) : Bool :=
  c.toNat ∈ [0x09, 0x0A, 0x0B, 0x0C, 0x0D, 0x1C, 0x1D, 0x1E, 0x1F, 0x20,
    0x85, 0xA0, 0x1680, 0x2000, 0x2001, 0x2002, 0x2003, 0x2004, 0x2005,
    0x2006, 0x2007, 0x2008, 0x2009, 0x200A, 0x2028, 0x2029, 0x202F, 0x205F, 0x3000]

/-- ASCII lowering, for the case-insensitive `inf`/`infinity`/`nan`
spellings (those keywords are ASCII, so ASCII lowering suffices). -/
def toLowerAscii (c : Char) : Char :=
  if 'A' ≤ c ∧ c ≤ 'Z' then Char.ofNat (c.toNat + 32) else c

/-- Optional leading sign; `true` means negative. -/
def takeSignB : List Char → Bool × List Char
  | '+' :: t => (false, t)
  | '-' :: t => (true, t)
  | s => (false, s)

/-- Continuation of a digit group: `(["_"] digit)*` with underscores
only singly and between digits (PEP 515); returns the digits found
(underscores dropped) and the unconsumed rest, stopping before an
underscore that is not followed by a digit. -/
def digitPartAux : List Char → List Char × List Char
  | d :: t =>
      if isDigitCh d then
        let p := digitPartAux t
        (d :: p.1, p.2)
      else if d = '_' then
        match t with
        | d2 :: t2 =>
            if isDigitCh d2 then
              let p := digitPartAux t2
              (d2 :: p.1, p.2)
            else ([], d :: t)
        | [] => ([], [d])
      else ([], d :: t)
  | [] => ([], [])

/-- A `digitpart` of the Python float grammar: at least one digit,
with single underscores allowed between digits. -/
def digitPart : List Char → Option (List Char × List Char)
  | c :: t =>
      if isDigitCh c then
        let p := digitPartAux t
        some (c :: p.1, p.2)
      else none
  | [] => none

/-- Mantissa from the integer and fraction digit groups, followed by
an optional exponent `(e|E) [sign] digitpart` that must consume the
rest of the token. -/
def mkPy (neg : Bool) (ip fp : List Char) (rest : List Char) : Option PyF :=
  let mant : ℚ := (digitsVal ip : ℚ) + (digitsVal fp : ℚ) / 10 ^ fp.length
  let signed : ℚ := if neg then -mant else mant
  match rest with
  | [] => some (.finite signed)
  | e :: t =>
      if e = 'e' ∨ e = 'E' then
        let p := takeSignB t
        match digitPart p.2 with
        | some (ed, t2) =>
            if t2 = [] then
              some (.finite (signed * (10 : ℚ)
                ^ (if p.1 then -(digitsVal ed : ℤ) else (digitsVal ed : ℤ))))
            else none
        | none => none
      else none

/-- The `number [exponent]` alternatives after the sign: `digitpart`,
`digitpart . [digitpart]`, or `. digitpart`. -/
def parseNumber (neg : Bool) (s : List Char) : Option PyF :=
  match digitPart s with
  | some (ip, r1) =>
      match r1 with
      | '.' :: r2 =>
          match digitPart r2 with
          | some (fp, r3) => mkPy neg ip fp r3
          | none => mkPy neg ip [] r2
      | _ => mkPy neg ip [] r1
  | none =>
      match s with
      | '.' :: r2 =>
          match digitPart r2 with
          | some (fp, r3) => mkPy neg [] fp r3
          | none => none
      | _ => none

/-- Model of Python `float(...)` applied to a string token: strip the
surrounding whitespace, take an optional sign, then accept the
case-insensitive spellings `inf`/`infinity`/`nan` or a decimal literal
with optional fraction, exponent, and single underscores between
digits; `none` when Python raises `ValueError`.  Numeric values are
idealized as exact rationals (no IEEE rounding, no overflow of huge
exponents to infinity — acceptance is unaffected), and digits as ASCII
`0-9` (Python additionally accepts the other Unicode decimal-digit
code points, which the model abstracts away). -/
def pyFloat (s : List Char) : Option PyF :=
  let s1 := ((s.dropWhile isPySpace).reverse.dropWhile isPySpace).reverse
  let p := takeSignB s1
  let low := p.2.map toLowerAscii
  if low = "inf".toList ∨ low = "infinity".toList then
    some (if p.1 then .ninf else .pinf)
  else if low = "nan".toList then some .nan
  else parseNumber p.1 p.2

/-- The `unit_converter` dictionary of `machinesize`:
`{'Bytes': 0, 'kB': 1, 'MB': 2, 'GB': 3, 'TB': 4, 'PB': 5}`; lookup
failure corresponds to Python's `KeyError`. -/
def unitConv (u : List Char) : Option ℕ :=
  if u = "Bytes".toList then some 0
  else if u = "kB".toList then some 1
  else if u = "MB".toList then some 2
  else if u = "GB".toList then some 3
  else if u = "TB".toList then some 4
  else if u = "PB".toList then some 5
  else none

/-- Failure modes of `machinesize`: Python raises `ValueError` when the
split does not unpack into exactly two pieces, `ValueError` when
`float()` rejects the number token, and `KeyError` when the unit token
is not a key of `unit_converter`. -/
inductive MachErr where
  | unpackError
  | floatError
  | unitKeyError
  deriving DecidableEq, Repr

/-- Argument of `machinesize`: a bare numeric value (no `.split`
attribute, so the `AttributeError` handler returns `float(humansize)`
unchanged), or a string. -/
inductive MachIn where
  | num (q : ℚ)
  | str (s : List Char)

/-- Embedding of `machinesize` (ls.py lines 467-475): split the string
on spaces into `size_str, size_unit`, parse the number with `float()`,
look the unit up in the ladder and scale by `1024 ** k` (a numeric
argument has no `.split`, so it is returned as `float(humansize)`). -/
def machinesize : MachIn → Except MachErr PyF
  | .num q => .ok (.finite q)
  | .str s =>
      match splitSp s with
      | [sizeStr, sizeUnit] =>
          match pyFloat sizeStr with
          | none => .error .floatError
          | some v =>
              match unitConv sizeUnit with
              | none => .error .unitKeyError
              | some k => .ok (v.scale (1024 ^ k))
      | _ => .error .unpackError

/-- C2: for every byte count `b ≥ 0`, machinizing the humanized
rendering of `b` is within one unit step (`1024 ^ k` for the selected
unit `k`) of `b`; it is exactly `b` when `b` is an exact multiple of
`1024 ^ k` for the unit the rendering selects; and the unit ladder
steps by a factor of 1024 (the rendering side is modelled from the
spec, being the external `humanize` library). -/
theorem machinesize_humanize_roundtrip (b : ℚ) (hb : 0 ≤ b) :
    |machinesizeH (naturalsizeH b) - b| ≤ 1024 ^ (naturalsizeH b).unit ∧
    (∀ m : ℕ, b = (m : ℚ) * 1024 ^ (naturalsizeH b).unit →
      machinesizeH (naturalsizeH b) = b) ∧
    (∀ t u : ℕ, machinesizeH ⟨t, u + 1⟩ = 1024 * machinesizeH ⟨t, u⟩) := by
  refine ⟨machinesizeH_naturalsizeH_close b hb, ?_, ?_⟩
  · intro m hm
    have hpow : (0 : ℚ) < 1024 ^ unitIdx b := by positivity
    have hunit : (naturalsizeH b).unit = unitIdx b := rfl
    rw [hunit] at hm
    have h1 : b / 1024 ^ unitIdx b = (m : ℚ) := by
      rw [div_eq_iff (ne_of_gt hpow)]
      exact hm
    have hgoal : 10 * b / 1024 ^ unitIdx b = ((10 * (m : ℤ) : ℤ) : ℚ) := by
      calc 10 * b / 1024 ^ unitIdx b = 10 * (b / 1024 ^ unitIdx b) := by ring
        _ = 10 * (m : ℚ) := by rw [h1]
        _ = ((10 * (m : ℤ) : ℤ) : ℚ) := by push_cast; ring
    exact machinesizeH_naturalsizeH_of_int b hb (10 * (m : ℤ)) hgoal
  · intro t u
    unfold machinesizeH
    simp only
    rw [pow_succ]
    ring

theorem machinesize_humanize_roundtrip_witness :
    (0 : ℚ) ≤ 1536 ∧
    |machinesizeH (naturalsizeH 1536) - 1536| ≤ 1024 ^ (naturalsizeH 1536).unit :=
  ⟨by norm_num, (machinesize_humanize_roundtrip 1536 (by norm_num)).1⟩

/-- C3 fails as stated: a string that does not match
`<number> <unit>` can be silently coerced to a (possibly non-finite)
number instead of raising — Python `float()` also accepts the
`nan`/`inf` spellings and whitespace-padded tokens, so `machinesize`
returns NaN for `"nan MB"`, infinity for `"inf kB"`, and `1024.0` for
the tab-padded `"1\t kB"`. -/
theorem machinesize_silent_coercion :
    machinesize (.str ("nan MB".toList)) = .ok PyF.nan ∧
    machinesize (.str ("inf kB".toList)) = .ok PyF.pinf ∧
    machinesize (.str ("1\t kB".toList)) = .ok (.finite 1024) := by
  refine ⟨rfl, rfl, ?_⟩
  have hshape : machinesize (.str ("1\t kB".toList))
      = .ok (.finite (((digitsVal ['1'] : ℚ)
          + (digitsVal ([] : List Char) : ℚ) / 10 ^ (0 : ℕ)) * 1024 ^ (1 : ℕ))) := rfl
  rw [hshape]
  have d1 : digitsVal ['1'] = 1 := by decide
  have d0 : digitsVal ([] : List Char) = 0 := by decide
  rw [d1, d0]
  simp only [Except.ok.injEq, PyF.finite.injEq]
  norm_num

/-- C3 (amended): `machinesize` passes a bare numeric value through
unchanged as a float; its unit table is exactly the ladder Bytes, kB,
MB, GB, TB, PB; and a string input yields a value precisely when it
splits on one single space into a token accepted by Python `float()` —
a whitespace-padded, optionally signed decimal literal (single
underscores between digits allowed) or an `inf`/`infinity`/`nan`
spelling — followed by a ladder unit.  Every other string raises a
format error (`ValueError`/`KeyError`), but the `float()` spellings
beyond a plain decimal numeral are silently coerced rather than
rejected (the last conjuncts exhibit accepted and rejected tokens). -/
theorem machinesize_coercion_and_errors :
    (∀ q : ℚ, machinesize (.num q) = .ok (.finite q)) ∧
    (∀ u : List Char, (unitConv u).isSome = true ↔
      u ∈ ["Bytes".toList, "kB".toList, "MB".toList, "GB".toList,
           "TB".toList, "PB".toList]) ∧
    (∀ s : List Char, (∃ v, machinesize (.str s) = .ok v) ↔
      ∃ a u, s = a ++ ' ' :: u ∧ ' ' ∉ a ∧ ' ' ∉ u ∧
        (pyFloat a).isSome = true ∧ (unitConv u).isSome = true) ∧
    ((pyFloat ("1\t".toList)).isSome = true ∧
     (pyFloat ("inf".toList)).isSome = true ∧
     (pyFloat ("nan".toList)).isSome = true ∧
     (pyFloat ("1_0".toList)).isSome = true ∧
     pyFloat ("1__0".toList) = none ∧
     pyFloat ("x1".toList) = none) := by
  refine ⟨fun q => rfl, ?_, ?_, by decide, by decide, by decide, by decide, by decide, by decide⟩
  · intro u
    unfold unitConv
    split_ifs with h1 h2 h3 h4 h5 h6 <;> simp_all
  · intro s
    constructor
    · rintro ⟨v, hv⟩
      rcases hsp : splitSp s with _ | ⟨a, _ | ⟨u, _ | ⟨x, r⟩⟩⟩
      · simp [machinesize, hsp] at hv
      · simp [machinesize, hsp] at hv
      · have hpair := (splitSp_pair s a u).mp hsp
        rcases hp : pyFloat a with _ | w
        · simp [machinesize, hsp, hp] at hv
        · rcases hu : unitConv u with _ | k
          · simp [machinesize, hsp, hp, hu] at hv
          · exact ⟨a, u, hpair.1, hpair.2.1, hpair.2.2, by simp [hp], by simp [hu]⟩
      · simp [machinesize, hsp] at hv
    · rintro ⟨a, u, heq, hna, hnu, hpf, huc⟩
      have hsp := (splitSp_pair s a u).mpr ⟨heq, hna, hnu⟩
      rcases Option.isSome_iff_exists.mp hpf with ⟨w, hw⟩
      rcases Option.isSome_iff_exists.mp huc with ⟨k, hk⟩
      exact ⟨w.scale (1024 ^ k), by simp [machinesize, hsp, hw, hk]⟩

/-! Filesystem model and node inspection (`FsModel` of the source). -/

/-- Node types reported by `FsModel.type_`: `link`, `link-broken`,
`file`, `annex`, `git`, `dir` (`None` for a nonexistent path cannot
arise for nodes of the tree model, which all exist). -/
inductive NodeType where
  | file
  | link
  | linkBroken
  | dir
  | annex
  | git
  deriving DecidableEq, Repr

mutual
/-- A filesystem subtree.  `file sz mt` is a regular file of size `sz`
and mtime `mt`; `link tgt mt` is a symbolic link — `tgt = none` when
the resolved target does not exist (broken), `tgt = some sz` when it
exists with on-disk size `sz`; `dir mt ents` is a directory with the
named entries `ents` (in `listdir` order). -/
inductive FsTree where
  | file (sz : ℕ) (mtime : ℕ)
  | link (tgt : Option ℕ) (mtime : ℕ)
  | dir (mtime : ℕ) (ents : FsEnts)
/-- Entry list of a directory: named child subtrees. -/
inductive FsEnts where
  | nil
  | cons (name : String) (t : FsTree) (rest : FsEnts)
end

/-- Lookup of a named entry (filesystem names are unique). -/
def FsEnts.findEnt : FsEnts → String → Option FsTree
  | .nil, _ => none
  | .cons n t r, m => if n = m then some t else r.findEnt m

/-- Entry list as a `List` for statements about membership and order. -/
def FsEnts.toList : FsEnts → List (String × FsTree)
  | .nil => []
  | .cons n t r => (n, t) :: r.toList

/-- `lstat(path).st_mtime` of a node. -/
def mtimeOf : FsTree → ℕ
  | .file _ m => m
  | .link _ m => m
  | .dir m _ => m

/-- `exists(opj(path, ".git", "annex"))`: the node has a `.git`
directory entry containing an `annex` entry. -/
def gitAnnexEntry (es : FsEnts) : Bool :=
  match es.findEnt ".git" with
  | some (.dir _ sub) => (sub.findEnt "annex").isSome
  | _ => false

/-- Embedding of `FsModel.type_` (ls.py lines 284-300): `islink` is
checked first (resolving the target decides link vs link-broken), then
`isfile`, then the `.git/annex` and `.git` existence checks, then
`isdir`. -/
def typeOf : FsTree → NodeType
  | .link tgt _ => if tgt.isSome then .link else .linkBroken
  | .file _ _ => .file
  | .dir _ es =>
      if gitAnnexEntry es then .annex
      else if (es.findEnt ".git").isSome then .git
      else .dir

/-- `isdir(opj(path, ".git"))`: the node is a directory whose `.git`
entry is itself a directory. -/
def isDirGit : FsTree → Bool
  | .dir _ es =>
      match es.findEnt ".git" with
      | some (.dir _ _) => true
      | _ => false
  | _ => false

/-- `isdir(opj(path, ".git", "annex"))`. -/
def isDirGitAnnex : FsTree → Bool
  | .dir _ es =>
      match es.findEnt ".git" with
      | some (.dir _ sub) =>
          match sub.findEnt "annex" with
          | some (.dir _ _) => true
          | _ => false
      | _ => false
  | _ => false

/-- Hidden-entry test of `ignored`: leaf name starting with a dot, or
the generated file name `index.html`. -/
def hiddenName (n : String) : Bool :=
  n.toList.head? = some '.' || n = "index.html"

/-- Embedding of `ignored` (ls.py lines 429-439) for an entry with
leaf name `n` and subtree `t`: git/annex-maintained directories are
ignored unless `only_hidden` is set; hidden names always are. -/
def ignored (n : String) (t : FsTree) (onlyHidden : Bool) : Bool :=
  if (isDirGit t || isDirGitAnnex t) && !onlyHidden then true
  else if hiddenName n then true
  else false

/-- `leaf_name`: name of the node at a path (last component). -/
def leafName (p : List String) : String := (p.getLast?).getD ""

/-- Repository handle consumed by `FsModel`: the queries `ls.py`
performs against an `AnnexRepo`/`GitRepo` — its root path, whether it
is annex-backed, per-path annex queries (`is_under_annex`,
`info(path)['size']`, `file_has_content`) and the repo-level sizes
(`git_local_size`, `annex_local_size`, `annex_worktree_size`). -/
structure RepoH where
  path : List String
  isAnnex : Bool
  underAnnex : List String → Bool
  annexSize : List String → ℕ
  hasContent : List String → Bool
  gitLocalSize : ℕ
  annexLocalSize : ℕ
  annexWorktreeSize : ℕ

/-- Embedding of `FsModel.size` (ls.py lines 257-282): start from an
all-zero dictionary over the five categories; for file-like nodes fill
`total`/`ondisk` either from the annex (recorded size; on-disk size
zero when the content is not materialized) or from `lstat` of the
link target or the path itself (zero for a broken link, never calling
`lstat` on the missing target); when the node is the repository root,
overwrite the three repo-level categories. -/
def fsSize (repo : RepoH) (path : List String) (t : FsTree) : SizeCat → ℚ :=
  let ty := typeOf t
  let s1 : SizeCat → ℚ :=
    if ty = .file ∨ ty = .link ∨ ty = .linkBroken then
      if repo.isAnnex && repo.underAnnex path then
        let sz : ℚ := repo.annexSize path
        let od : ℚ := if repo.hasContent path then sz else 0
        fun c =>
          match c with
          | .total => sz
          | .ondisk => od
          | _ => 0
      else
        let sz : ℚ :=
          match t with
          | .link none _ => 0
          | .link (some ts) _ => ts
          | .file s _ => s
          | .dir _ _ => 0
        fun c =>
          match c with
          | .total => sz
          | .ondisk => sz
          | _ => 0
    else fun _ => 0
  if repo.path = path then
    fun c =>
      match c with
      | .git => repo.gitLocalSize
      | .annex => repo.annexLocalSize
      | .annexWorktree => repo.annexWorktreeSize
      | c' => s1 c'
  else s1

/-- The dictionary built by `fs_extract` (ls.py lines 411-420): name,
path, parent repository path, node type, humanized sizes (every
category present), formatted mtime.  The `nodes` key is added later by
`fs_traverse` for directories only, hence is not part of this record.
Sizes are stored humanized; the mapping is total (`some`) here. -/
structure FsRec where
  name : String
  path : List String
  repo : List String
  type_ : NodeType
  size : SizeCat → Option HSize
  date : ℕ

/-- Embedding of `fs_extract`: extract the node info dictionary. -/
def fs_extract (repo : RepoH) (path : List String) (t : FsTree) : FsRec :=
  { name := if leafName path ≠ "" then leafName path else leafName repo.path
    path := path
    repo := repo.path
    type_ := typeOf t
    size := fun c => some (naturalsizeH (fsSize repo path t c))
    date := mtimeOf t }

/-- `machinesize` applied to a value of the size dictionary, with a
missing key contributing `children_size.get(size_type, 0)`-style zero. -/
def machinesizeOptD : Option HSize → ℚ
  | some h => machinesizeH h
  | none => 0

/-- The roll-up of ls.py lines 517-524 (and 573-581): the aggregate
dictionary has a key for a category exactly when some summand has it;
its value is the humanized sum of the machinized values, a missing
value counting as zero. -/
def rollupMaps (ms : List (SizeCat → Option HSize)) (c : SizeCat) : Option HSize :=
  if ms.all (fun m => (m c).isNone) then none
  else some (naturalsizeH (ms.foldl (fun a m => a + machinesizeOptD (m c)) 0))

/-- `children[-1]['size'] = subdir['size']`: replace the size of the
last record of the list. -/
def updateLastSize (l : List FsRec) (s : SizeCat → Option HSize) : List FsRec :=
  match l with
  | [] => []
  | [r] => [{ r with size := s }]
  | r :: rest => r :: updateLastSize rest s

/-- Return value of `fs_traverse`: the node's dictionary, together with
the `nodes` key (present only for directories). -/
structure TravOut where
  fs : FsRec
  nodes : Option (List FsRec)

mutual
/-- Embedding of `fs_traverse` (ls.py lines 478-536).  For a
directory: extract the node's record, seed the children list with a
second extraction of the node itself, loop over the entries
(`travLoop`), roll the children's sizes up into the node's (and the
self-entry's) size, rename the self-entry to `.`, and, when a parent
record was supplied, rename it to `..` and insert it as second child.
The second component of the result is the parent record as the call
leaves it — `fs_traverse` mutates the supplied dictionary
(`parent['name'] = '..'`).  Rendering (`fs_render`) is output only and
not modelled. -/
def fs_traverse (repo : RepoH) (path : List String) (t : FsTree)
    (parent : Option FsRec) (rc : Bool) : TravOut × Option FsRec :=
  match t with
  | .dir mt es =>
      let fs0 := fs_extract repo path (.dir mt es)
      let st := travLoop repo path rc es (fs_extract repo path (.dir mt es), [])
      let rsize := rollupMaps (st.2.map (fun r => r.size))
      let selfRec : FsRec := { st.1 with size := rsize, name := "." }
      let fsOut : FsRec := { fs0 with size := rsize }
      match parent with
      | some p =>
          let p' : FsRec := { p with name := ".." }
          (⟨fsOut, some (selfRec :: p' :: st.2)⟩, some p')
      | none => (⟨fsOut, some (selfRec :: st.2)⟩, none)
  | .file sz mt => (⟨fs_extract repo path (.file sz mt), none⟩, parent)
  | .link tgt mt => (⟨fs_extract repo path (.link tgt mt), none⟩, parent)

/-- The loop body of `fs_traverse` over the directory entries.  The
state is `(children[0], children[1:])`: the head is the self-entry
(mutated by recursive calls that receive it as `parent`), the tail the
accumulated child records.  A child is appended unless hidden
(`ignored(..., only_hidden=True)`); when `recursive` and the child is
not fully ignored, the child is traversed and the last appended
record's size is replaced by the traversal's rolled-up size. -/
def travLoop (repo : RepoH) (path : List String) (rc : Bool)
    (es : FsEnts) (st : FsRec × List FsRec) : FsRec × List FsRec :=
  match es with
  | .nil => st
  | .cons n ct rest =>
      let nodepath := path ++ [n]
      let tl1 := if ignored n ct true = false
        then st.2 ++ [fs_extract repo nodepath ct] else st.2
      let st2 : FsRec × List FsRec :=
        if rc && (ignored n ct false = false) then
          let sub := fs_traverse repo nodepath ct (some st.1) rc
          ((sub.2).getD st.1, updateLastSize tl1 sub.1.fs.size)
        else (st.1, tl1)
      travLoop repo path rc rest st2
end

mutual
/-- A dataset as `_ds_traverse` consumes it: a root path, the repo
handle at that root, the working tree, and the linked sub-datasets
(`get_subdatasets`), each a dataset of its own. -/
inductive DS where
  | mk (path : List String) (repo : RepoH) (tree : FsTree) (subs : DSList)
/-- The list of sub-datasets. -/
inductive DSList where
  | nil
  | cons (d : DS) (rest : DSList)
end

def DS.path : DS → List String
  | .mk p _ _ _ => p

def DS.repo : DS → RepoH
  | .mk _ r _ _ => r

def DS.tree : DS → FsTree
  | .mk _ _ t _ => t

def DS.subs : DS → DSList
  | .mk _ _ _ s => s

mutual
/-- Embedding of `_ds_traverse` (ls.py lines 539-586): traverse the
dataset's own file tree (non-rendering, with the parent dataset's
extracted record as pseudo-parent), then, when `all` is set, traverse
every linked sub-dataset (note the source does not forward `all` to
the nested call) and collect the sizes; finally replace the record's
size by the humanized aggregate of the collected size dictionaries. -/
def ds_traverse (d : DS) (parent : Option DS) (rc : Bool) (all : Bool) : TravOut :=
  match d with
  | .mk path repo tree subs =>
      let fsparent := parent.map (fun p => fs_extract p.repo p.path p.tree)
      let fs := (fs_traverse repo path tree fsparent rc).1
      let sizeList := fs.fs.size ::
        (if all then dsSubSizes subs (.mk path repo tree subs) rc else [])
      { fs with fs := { fs.fs with size := rollupMaps sizeList } }

/-- Sizes of the recursively traversed sub-datasets (the loop body of
`_ds_traverse`; the nested call receives the current dataset as parent
and the default `all=False`). -/
def dsSubSizes (l : DSList) (parent : DS) (rc : Bool) : List (SizeCat → Option HSize) :=
  match l with
  | .nil => []
  | .cons sd rest => (ds_traverse sd (some parent) rc false).fs.size :: dsSubSizes rest parent rc
end

/-! Flat dataset listing (`format_ds_model` / `_ls_dataset`).

The property computations on an `AnnexModel` (`branch`, `describe`,
`date`, `clean`, the two annex sizes) can each raise; the formatter
evaluates them in the order the format string interpolates them, and
`format_ds_model` catches any exception, emitting the error template
`path_fmt + "  {msg!R}"` instead.  Exceptions are modelled as
`Except String`, colors as empty strings (non-interactive terminal),
the `!D`-formatted date abstractly by its number. -/

/-- One prepared entry of the flat dataset listing: the adjusted
display path, existence of the path and presence of the repo (the
"not installed" test), and the lazily computed, possibly raising
properties of the model. -/
structure DsModelE where
  path : String
  existsPath : Bool
  repoPresent : Bool
  type_ : String
  branch : Except String (Option String)
  describe : Except String (Option String)
  date : Except String (Option ℕ)
  clean : Except String Bool
  annexLocalSize : Except String ℕ
  annexWorktreeSize : Except String ℕ

/-- `convert_field` with the `N` conversion: the value, or the NONE
marker for `None`. -/
def convN (v : Option String) : String := v.getD "-"

/-- `convert_field` with the `D` conversion: a formatted date or `-`. -/
def convD (v : Option ℕ) : String := (v.map toString).getD "-"

/-- `convert_field` with the `X` conversion: colored OK/NOK marks
(colors empty when not interactive). -/
def convX (v : Bool) : String := if v then "OK" else "X"

/-- `path_fmt`: the path padded to the common width. -/
def padPath (w : ℕ) (p : String) : String :=
  p ++ String.mk (List.replicate (w - p.length) ' ')

/-- Evaluation of `full_fmt` on one model: interpolates the properties
in order; the first raising property aborts the formatting with that
exception. -/
def formatFields (w : ℕ) (m : DsModelE) (fast all : Bool) : Except String String := do
  let b ← m.branch
  let de ← m.describe
  let dt ← m.date
  let base := padPath w m.path ++ "  [" ++ m.type_ ++ "]  " ++ convN b ++ "  "
    ++ convN de ++ " " ++ convD dt
  let withClean ← if !fast || all then do
      let c ← m.clean
      pure (base ++ "  " ++ convX c)
    else pure base
  if all then do
    let al ← m.annexLocalSize
    let aw ← m.annexWorktreeSize
    pure (withClean ++ "  " ++ toString al ++ "/" ++ toString aw)
  else pure withClean

/-- `format_exc`: `path_fmt + "  {msg!R}"`. -/
def formatExcLine (w : ℕ) (m : DsModelE) (msg : String) : String :=
  padPath w m.path ++ "  " ++ msg

/-- Embedding of `format_ds_model` (ls.py lines 359-368): the
not-installed guard, then the formatting with every exception caught
and replaced by the error template. -/
def format_ds_model (w : ℕ) (m : DsModelE) (fast all : Bool) : String :=
  if !m.existsPath || !m.repoPresent then formatExcLine w m "not installed"
  else
    match formatFields w m fast all with
    | .ok s => s
    | .error msg => formatExcLine w m msg

/-- Embedding of the output loop of `_ls_dataset` (ls.py lines
372-408) on the prepared models: the common path width, then one
formatted line per model. -/
def ls_dataset (ms : List DsModelE) (fast all : Bool) : List String :=
  let w := (ms.map (fun m => m.path.length)).foldr max 0
  ms.map (fun m => format_ds_model w m fast all)

/-! Structural lemmas about the traversal. -/

theorem ignored_true_eq (n : String) (ct : FsTree) :
    ignored n ct true = hiddenName n := by
  unfold ignored
  simp

theorem ignored_full_of_hidden (n : String) (ct : FsTree)
    (h : hiddenName n = true) : ignored n ct false = true := by
  unfold ignored
  simp [h]

theorem fs_traverse_fs_parent (repo : RepoH) (path : List String) (t : FsTree)
    (parent : Option FsRec) (rc : Bool) :
    (fs_traverse repo path t parent rc).1.fs = (fs_traverse repo path t none rc).1.fs := by
  cases t <;> cases parent <;> rfl

theorem updateLastSize_append (r : FsRec) (s : SizeCat → Option HSize) :
    ∀ l : List FsRec, updateLastSize (l ++ [r]) s = l ++ [{ r with size := s }]
  | [] => rfl
  | [x] => rfl
  | x :: y :: ys => by
      have ih := updateLastSize_append r s (y :: ys)
      show x :: updateLastSize ((y :: ys) ++ [r]) s = x :: ((y :: ys) ++ [{ r with size := s }])
      rw [ih]

/-- The children accumulated by the loop of `fs_traverse`, in closed
form: one record per non-hidden entry, carrying its extracted info,
with the size replaced by the recursive traversal's size when the
entry is recursed into. -/
def loopChildren (repo : RepoH) (path : List String) (rc : Bool) : FsEnts → List FsRec
  | .nil => []
  | .cons n ct rest =>
      let nodepath := path ++ [n]
      let base := if ignored n ct true = false
        then [fs_extract repo nodepath ct] else []
      let upd := if rc && (ignored n ct false = false) then
          updateLastSize base (fs_traverse repo nodepath ct none rc).1.fs.size
        else base
      upd ++ loopChildren repo path rc rest

theorem travLoop_two (repo : RepoH) (path : List String) (rc : Bool) :
    ∀ (es : FsEnts) (hd : FsRec) (tl : List FsRec),
      (travLoop repo path rc es (hd, tl)).2 = tl ++ loopChildren repo path rc es
  | .nil, hd, tl => by simp [travLoop, loopChildren]
  | .cons n ct rest, hd, tl => by
      have ih := fun (hd' : FsRec) (tl' : List FsRec) =>
        travLoop_two repo path rc rest hd' tl'
      cases hhid : ignored n ct true with
      | true =>
          have hful : ignored n ct false = true := by
            apply ignored_full_of_hidden
            rw [← ignored_true_eq n ct, hhid]
          show (travLoop repo path rc rest _).2 = _
          simp only [travLoop, loopChildren, hhid, hful]
          norm_num
          rw [ih]
      | false =>
          cases hrc : rc && decide (ignored n ct false = false) with
          | false =>
              simp only [travLoop, loopChildren, hhid, hrc]
              norm_num
              rw [ih]
              simp
          | true =>
              simp only [travLoop, loopChildren, hhid, hrc]
              norm_num
              rw [ih]
              rw [fs_traverse_fs_parent repo (path ++ [n]) ct (some hd) rc]
              rw [updateLastSize_append]
              simp
              rfl

/-- C1: for every directory record produced by `fs_traverse` (at any
depth — each traversed directory is the root of one such call), the
record's size dictionary is exactly the roll-up of the sizes of its
direct children — the entries of its `nodes` list after the self-entry
and the inserted `..` entry — category-wise, a missing category of a
child counting as zero (`children_size.get(size_type, 0)`), the value
being the humanized sum of the machinized child values. -/
theorem fs_traverse_dir_size_rollup (repo : RepoH) (path : List String)
    (mt : ℕ) (es : FsEnts) (parent : Option FsRec) (rc : Bool) :
    (fs_traverse repo path (.dir mt es) parent rc).1.fs.size
      = rollupMaps
          ((((fs_traverse repo path (.dir mt es) parent rc).1.nodes.getD []).drop
              (1 + if parent.isSome then 1 else 0)).map (fun r => r.size)) := by
  cases parent <;> simp [fs_traverse]

theorem leafName_append (p : List String) (n : String) :
    leafName (p ++ [n]) = n := by
  unfold leafName
  rw [List.getLast?_concat]
  rfl

theorem fs_extract_child_name (repo : RepoH) (path : List String) (n : String)
    (ct : FsTree) (hn : n ≠ "") :
    (fs_extract repo (path ++ [n]) ct).name = n := by
  unfold fs_extract
  simp [leafName_append, hn]

theorem loopChildren_names (repo : RepoH) (path : List String) (rc : Bool) :
    ∀ (es : FsEnts) (r : FsRec), r ∈ loopChildren repo path rc es →
      ∃ n ct, (n, ct) ∈ es.toList ∧ ignored n ct true = false ∧
        r.name = (fs_extract repo (path ++ [n]) ct).name
  | .nil, r => by simp [loopChildren]
  | .cons n ct rest, r => by
      intro hr
      simp only [loopChildren] at hr
      rcases List.mem_append.mp hr with h1 | h2
      · split_ifs at h1 with hA hB hB2
        · simp [updateLastSize] at h1
          exact ⟨n, ct, by simp [FsEnts.toList], hB, by simp [h1]⟩
        · simp [updateLastSize] at h1
        · simp at h1
          exact ⟨n, ct, by simp [FsEnts.toList], hB2, by simp [h1]⟩
        · simp at h1
      · have ih := loopChildren_names repo path rc rest r h2
        rcases ih with ⟨n', ct', hmem, hig, hname⟩
        exact ⟨n', ct', by simp [FsEnts.toList]; right; exact hmem, hig, hname⟩

/-- C5: no ignored entry ever appears in a directory record's children
list: every entry of the `nodes` list of a traversed directory is the
`.` self-entry, the `..` parent pseudo-entry, or a real child whose
name is not hidden — it does not start with a dot (which covers the
`.git`/`.git/annex` version-control metadata directories and the
`.dir.json` sidecar) and is not the generated `index.html`.  Entry
names coming from `listdir` are nonempty. -/
theorem fs_traverse_no_ignored_children (repo : RepoH) (path : List String)
    (mt : ℕ) (es : FsEnts) (parent : Option FsRec) (rc : Bool)
    (hne : ∀ q ∈ es.toList, q.1 ≠ "") :
    ∀ r ∈ (fs_traverse repo path (.dir mt es) parent rc).1.nodes.getD [],
      r.name = "." ∨ r.name = ".." ∨ hiddenName r.name = false := by
  intro r hr
  have hchild : ∀ r' : FsRec, r' ∈ loopChildren repo path rc es →
      r'.name = "." ∨ r'.name = ".." ∨ hiddenName r'.name = false := by
    intro r' hr'
    rcases loopChildren_names repo path rc es r' hr' with ⟨n, ct, hmem, hig, hname⟩
    right; right
    rw [hname, fs_extract_child_name repo path n ct (hne (n, ct) hmem)]
    rw [ignored_true_eq] at hig
    exact hig
  cases parent with
  | none =>
      simp only [fs_traverse, travLoop_two, List.nil_append, Option.getD_some] at hr
      rcases List.mem_cons.mp hr with h1 | h2
      · left; rw [h1]
      · exact hchild r h2
  | some p =>
      simp only [fs_traverse, travLoop_two, List.nil_append, Option.getD_some] at hr
      rcases List.mem_cons.mp hr with h1 | hr2
      · left; rw [h1]
      · rcases List.mem_cons.mp hr2 with h2 | h3
        · right; left; rw [h2]
        · exact hchild r h3

/-- Concrete plain (non-annex) repository handle used in witnesses. -/
def wRepo : RepoH :=
  { path := ["r"]
    isAnnex := false
    underAnnex := fun _ => false
    annexSize := fun _ => 0
    hasContent := fun _ => false
    gitLocalSize := 0
    annexLocalSize := 0
    annexWorktreeSize := 0 }

theorem fs_traverse_no_ignored_children_witness :
    (fs_extract wRepo (["r"] ++ ["a"]) (.file 100 7)).name = "." ∨
    (fs_extract wRepo (["r"] ++ ["a"]) (.file 100 7)).name = ".." ∨
    hiddenName (fs_extract wRepo (["r"] ++ ["a"]) (.file 100 7)).name = false :=
  fs_traverse_no_ignored_children wRepo ["r"] 0
    (.cons "a" (.file 100 7) (.cons ".c" (.file 5 3) .nil)) none false
    (by decide)
    (fs_extract wRepo (["r"] ++ ["a"]) (.file 100 7))
    (List.Mem.tail _ (List.Mem.head _))

/-- C4 (amended): every record produced by `fs_extract` carries all
five size categories (absent values appear as humanized zero, never as
a missing key); but the roll-up of `fs_traverse` maps exactly the
categories occurring in the children, so an empty directory's record
has an empty size dictionary — every category omitted — rather than an
all-zero one, while its children list is exactly the self-entry (plus
`..` when a parent is given). -/
theorem fs_extract_all_categories_and_empty_dir :
    (∀ (repo : RepoH) (path : List String) (t : FsTree) (c : SizeCat),
      ((fs_extract repo path t).size c).isSome = true) ∧
    (∀ (repo : RepoH) (path : List String) (mt : ℕ) (parent : Option FsRec) (rc : Bool),
      (∀ c, (fs_traverse repo path (.dir mt .nil) parent rc).1.fs.size c = none) ∧
      ((fs_traverse repo path (.dir mt .nil) parent rc).1.nodes.getD []).map
          (fun r => r.name)
        = "." :: (if parent.isSome then [".."] else [])) := by
  constructor
  · intro repo path t c
    rfl
  · intro repo path mt parent rc
    constructor
    · intro c
      cases parent <;> simp [fs_traverse, travLoop, rollupMaps]
    · cases parent <;> simp [fs_traverse, travLoop]

/-- C4 fails as stated: traversing an empty directory does not produce
an all-zero size breakdown; the `total` category (like every other) is
omitted from the resulting record's size dictionary. -/
theorem empty_dir_size_omitted :
    (fs_traverse wRepo ["r"] (.dir 0 .nil) none false).1.fs.size SizeCat.total = none := by
  simp [fs_traverse, travLoop, rollupMaps]

/-- C10 (amended): when a parent record is supplied to `fs_traverse`
on a directory, the call renames that very record to `..` and inserts
it (the same record object in the source, so sharing it with the
caller) as the second child, right after the `.` self-entry; all its
other fields are kept; the state of the supplied parent record after
the call is the renamed record. -/
theorem fs_traverse_parent_mutation (repo : RepoH) (path : List String)
    (mt : ℕ) (es : FsEnts) (p : FsRec) (rc : Bool) :
    (fs_traverse repo path (.dir mt es) (some p) rc).2 = some { p with name := ".." } ∧
    ((fs_traverse repo path (.dir mt es) (some p) rc).1.nodes.getD [])[1]?
      = some { p with name := ".." } ∧
    (((fs_traverse repo path (.dir mt es) (some p) rc).1.nodes.getD [])[0]?).map
        (fun r => r.name) = some "." := by
  refine ⟨rfl, ?_, ?_⟩ <;> simp [fs_traverse]

/-- A concrete parent record, as `_ds_traverse` would extract one. -/
def pRec : FsRec :=
  { name := "p"
    path := ["p"]
    repo := ["r"]
    type_ := .dir
    size := fun _ => some ⟨0, 0⟩
    date := 0 }

/-- C10 fails as stated: the supplied parent record is NOT left
unchanged by the call — `fs_traverse` renames it to `..` (and inserts
the very same dictionary into the children it returns). -/
theorem fs_traverse_parent_mutated :
    (fs_traverse wRepo ["r"] (.dir 0 .nil) (some pRec) false).2 ≠ some pRec := by
  intro h
  have hname := congrArg (fun o : Option FsRec => (o.getD pRec).name) h
  simp [fs_traverse, pRec] at hname

theorem naturalsizeH_zero : naturalsizeH 0 = ⟨0, 0⟩ := by
  norm_num [naturalsizeH, unitIdx]

theorem machinesizeH_zero : machinesizeH ⟨0, 0⟩ = 0 := by
  norm_num [machinesizeH]

theorem naturalsizeH_kib : naturalsizeH 1024 = ⟨10, 1⟩ := by
  norm_num [naturalsizeH, unitIdx]
  rfl

theorem machinesizeH_kib : machinesizeH ⟨10, 1⟩ = 1024 := by
  norm_num [machinesizeH]

theorem typeOf_dir_cases (mt : ℕ) (es : FsEnts) :
    typeOf (.dir mt es) = .annex ∨ typeOf (.dir mt es) = .git ∨
      typeOf (.dir mt es) = .dir := by
  by_cases h1 : gitAnnexEntry es = true
  · left; simp [typeOf, h1]
  · by_cases h2 : (es.findEnt ".git").isSome = true
    · right; left; simp [typeOf, h1, h2]
    · right; right; simp [typeOf, h1, h2]

theorem fsSize_dir_nonroot (repo : RepoH) (path : List String) (mt : ℕ)
    (es : FsEnts) (h : repo.path ≠ path) (c : SizeCat) :
    fsSize repo path (.dir mt es) c = 0 := by
  unfold fsSize
  rcases typeOf_dir_cases mt es with hty | hty | hty <;>
    simp [hty, h]

/-- With `recursive=false`, `loopChildren` is a plain filter-map of
`fs_extract` over the non-hidden entries: nothing below a child is
computed. -/
theorem loopChildren_nonrec (repo : RepoH) (path : List String) :
    ∀ es : FsEnts, loopChildren repo path false es
      = es.toList.filterMap (fun q =>
          if ignored q.1 q.2 true = false
          then some (fs_extract repo (path ++ [q.1]) q.2) else none)
  | .nil => rfl
  | .cons n ct rest => by
      have ih := loopChildren_nonrec repo path rest
      simp only [loopChildren, FsEnts.toList, List.filterMap_cons]
      rw [ih]
      by_cases hhid : ignored n ct true = false
      · simp [hhid]
      · simp [hhid]

/-- A subdirectory holding a single file of the given size. -/
def subTree (sz : ℕ) : FsTree := .dir 0 (.cons "f" (.file sz 0) .nil)

/-- A directory holding that subdirectory as its only entry. -/
def parentTree (sz : ℕ) : FsTree := .dir 0 (.cons "s" (subTree sz) .nil)

/-- C6 (amended): with `recursive=false` a subdirectory's contents are
never computed: the children of the traversed directory are exactly
the bare `fs_extract` records of its non-hidden entries, and the
extract of a directory entry (not the repo root) contributes zero to
every category of the parent's roll-up.  Recursive and non-recursive
modes can therefore produce different aggregates for a non-empty
subdirectory — they do when it holds a single 1024-byte file — though
not for every non-empty subdirectory (humanized aggregates coincide
when the subdirectory's rolled-up sizes are all zero). -/
theorem fs_traverse_nonrecursive_subdir (repo : RepoH) (path : List String)
    (mt : ℕ) (es : FsEnts) (parent : Option FsRec)
    (n : String) (mt2 : ℕ) (es2 : FsEnts) (c : SizeCat)
    (hroot : repo.path ≠ path ++ [n]) :
    ((((fs_traverse repo path (.dir mt es) parent false).1.nodes.getD []).drop
        (1 + if parent.isSome then 1 else 0))
      = es.toList.filterMap (fun q =>
          if ignored q.1 q.2 true = false
          then some (fs_extract repo (path ++ [q.1]) q.2) else none)) ∧
    machinesizeOptD ((fs_extract repo (path ++ [n]) (.dir mt2 es2)).size c) = 0 ∧
    (fs_traverse wRepo ["r"] (parentTree 1024) none true).1.fs.size SizeCat.total
      ≠ (fs_traverse wRepo ["r"] (parentTree 1024) none false).1.fs.size SizeCat.total := by
  refine ⟨?_, ?_, ?_⟩
  · cases parent <;> simp [fs_traverse, travLoop_two, loopChildren_nonrec]
  · show machinesizeOptD (some (naturalsizeH (fsSize repo (path ++ [n]) (.dir mt2 es2) c))) = 0
    rw [fsSize_dir_nonroot repo (path ++ [n]) mt2 es2 hroot c]
    simp [machinesizeOptD, naturalsizeH_zero, machinesizeH_zero]
  · have h1 : (fs_traverse wRepo ["r"] (parentTree 1024) none true).1.fs.size SizeCat.total
        = some ⟨10, 1⟩ := by
      simp [fs_traverse, travLoop, parentTree, subTree, updateLastSize, rollupMaps, fsSize,
        fs_extract, typeOf, ignored, hiddenName, isDirGit, isDirGitAnnex, gitAnnexEntry,
        FsEnts.findEnt, machinesizeOptD, wRepo, naturalsizeH_zero, machinesizeH_zero,
        naturalsizeH_kib, machinesizeH_kib, mtimeOf, leafName]
    have h2 : (fs_traverse wRepo ["r"] (parentTree 1024) none false).1.fs.size SizeCat.total
        = some ⟨0, 0⟩ := by
      simp [fs_traverse, travLoop, parentTree, subTree, updateLastSize, rollupMaps, fsSize,
        fs_extract, typeOf, ignored, hiddenName, isDirGit, isDirGitAnnex, gitAnnexEntry,
        FsEnts.findEnt, machinesizeOptD, wRepo, naturalsizeH_zero, machinesizeH_zero,
        naturalsizeH_kib, machinesizeH_kib, mtimeOf, leafName]
    rw [h1, h2]
    simp

theorem fs_traverse_nonrecursive_subdir_witness :
    ((((fs_traverse wRepo ["r"] (.dir 0 (.cons "s" (subTree 1024) .nil)) none false).1.nodes.getD
          []).drop (1 + if (none : Option FsRec).isSome then 1 else 0))
      = (FsEnts.cons "s" (subTree 1024) .nil).toList.filterMap (fun q =>
          if ignored q.1 q.2 true = false
          then some (fs_extract wRepo (["r"] ++ [q.1]) q.2) else none)) ∧
    machinesizeOptD
        ((fs_extract wRepo (["r"] ++ ["s"]) (.dir 0 (.cons "f" (.file 1024 0) .nil))).size
          SizeCat.total) = 0 ∧
    (fs_traverse wRepo ["r"] (parentTree 1024) none true).1.fs.size SizeCat.total
      ≠ (fs_traverse wRepo ["r"] (parentTree 1024) none false).1.fs.size SizeCat.total :=
  fs_traverse_nonrecursive_subdir wRepo ["r"] 0 (.cons "s" (subTree 1024) .nil) none "s" 0
    (.cons "f" (.file 1024 0) .nil) SizeCat.total (by decide)

/-- C6 fails in its final clause as stated: a non-empty subdirectory
(here holding one zero-byte file) on which the recursive and the
non-recursive traversal report identical aggregate sizes. -/
theorem recursive_nonrecursive_equal_on_nonempty_subdir :
    subTree 0 = .dir 0 (.cons "f" (.file 0 0) .nil) ∧
    (fs_traverse wRepo ["r"] (parentTree 0) none true).1.fs.size
      = (fs_traverse wRepo ["r"] (parentTree 0) none false).1.fs.size := by
  refine ⟨rfl, funext fun c => ?_⟩
  cases c <;>
    simp [fs_traverse, travLoop, parentTree, subTree, updateLastSize, rollupMaps, fsSize,
      fs_extract, typeOf, ignored, hiddenName, isDirGit, isDirGitAnnex, gitAnnexEntry,
      FsEnts.findEnt, machinesizeOptD, wRepo, naturalsizeH_zero, machinesizeH_zero,
      naturalsizeH_kib, machinesizeH_kib, mtimeOf, leafName]

theorem fs_traverse_link_fs (repo : RepoH) (p : List String) (tgt : Option ℕ)
    (mt : ℕ) (parent : Option FsRec) (rc : Bool) :
    (fs_traverse repo p (.link tgt mt) parent rc).1.fs = fs_extract repo p (.link tgt mt) := rfl

theorem loopChildren_mem_broken_link (repo : RepoH) (path : List String) (rc : Bool) :
    ∀ (es : FsEnts) (n : String) (mt2 : ℕ),
      (n, FsTree.link none mt2) ∈ es.toList →
      ignored n (.link none mt2) true = false →
      fs_extract repo (path ++ [n]) (.link none mt2) ∈ loopChildren repo path rc es
  | .nil, n, mt2 => by simp [FsEnts.toList]
  | .cons m ct rest, n, mt2 => by
      intro hmem hig
      simp only [FsEnts.toList, List.mem_cons] at hmem
      rcases hmem with heq | hmem'
      · rw [Prod.ext_iff] at heq
        obtain ⟨hn, hct⟩ := heq
        simp only at hn hct
        subst hn
        subst hct
        simp only [loopChildren]
        apply List.mem_append_left
        rw [if_pos hig]
        have hsz : (fs_traverse repo (path ++ [n]) (.link none mt2) none rc).1.fs.size
            = (fs_extract repo (path ++ [n]) (.link none mt2)).size := rfl
        by_cases hrc : (rc && decide (ignored n (.link none mt2) false = false)) = true
        · rw [if_pos hrc, hsz]
          have : updateLastSize [fs_extract repo (path ++ [n]) (.link none mt2)]
              (fs_extract repo (path ++ [n]) (.link none mt2)).size
              = [fs_extract repo (path ++ [n]) (.link none mt2)] := rfl
          rw [this]
          exact List.Mem.head _
        · rw [if_neg hrc]
          exact List.Mem.head _
      · have ih := loopChildren_mem_broken_link repo path rc rest n mt2 hmem' hig
        simp only [loopChildren]
        exact List.mem_append_right _ ih

theorem fsSize_broken_link (repo : RepoH) (p : List String) (mt2 : ℕ)
    (hannex : ¬(repo.isAnnex = true ∧ repo.underAnnex p = true))
    (hroot : repo.path ≠ p) (c : SizeCat) :
    fsSize repo p (.link none mt2) c = 0 := by
  unfold fsSize
  have hty : typeOf (.link none mt2) = .linkBroken := rfl
  have hA : (repo.isAnnex && repo.underAnnex p) = false := by
    cases hA1 : repo.isAnnex <;> cases hA2 : repo.underAnnex p <;> simp_all
  simp only [hty, hroot, hA]
  cases c <;> simp

/-- C8 (amended): a broken symbolic link inside a traversed directory
appears among the children classified `link-broken`, the traversal of
the containing directory completes (the embedding is total, and the
broken-link branch never stats the missing target), and the node
reports humanized zero in every size category provided it is not
annex-tracked (an annex-tracked broken link instead reports the
annex-recorded logical size with on-disk zero — see the
counterexample) and is not the repository root. -/
theorem broken_link_in_traversal (repo : RepoH) (path : List String)
    (mt : ℕ) (es : FsEnts) (parent : Option FsRec) (rc : Bool)
    (n : String) (mt2 : ℕ) (c : SizeCat)
    (hmem : (n, FsTree.link none mt2) ∈ es.toList)
    (hhid : ignored n (.link none mt2) true = false)
    (hne : n ≠ "")
    (hannex : ¬(repo.isAnnex = true ∧ repo.underAnnex (path ++ [n]) = true))
    (hroot : repo.path ≠ path ++ [n]) :
    fs_extract repo (path ++ [n]) (.link none mt2)
      ∈ (fs_traverse repo path (.dir mt es) parent rc).1.nodes.getD [] ∧
    (fs_extract repo (path ++ [n]) (.link none mt2)).name = n ∧
    (fs_extract repo (path ++ [n]) (.link none mt2)).type_ = NodeType.linkBroken ∧
    (fs_extract repo (path ++ [n]) (.link none mt2)).size c = some (naturalsizeH 0) := by
  refine ⟨?_, fs_extract_child_name repo path n _ hne, rfl, ?_⟩
  · have hlc := loopChildren_mem_broken_link repo path rc es n mt2 hmem hhid
    cases parent with
    | none =>
        simp only [fs_traverse, travLoop_two, List.nil_append, Option.getD_some]
        exact List.mem_cons_of_mem _ hlc
    | some p =>
        simp only [fs_traverse, travLoop_two, List.nil_append, Option.getD_some]
        exact List.mem_cons_of_mem _ (List.mem_cons_of_mem _ hlc)
  · show some (naturalsizeH (fsSize repo (path ++ [n]) (.link none mt2) c))
        = some (naturalsizeH 0)
    rw [fsSize_broken_link repo (path ++ [n]) mt2 hannex hroot c]

theorem broken_link_in_traversal_witness :
    fs_extract wRepo (["r"] ++ ["b"]) (.link none 3)
      ∈ (fs_traverse wRepo ["r"] (.dir 0 (.cons "b" (.link none 3) .nil)) none false).1.nodes.getD
          [] ∧
    (fs_extract wRepo (["r"] ++ ["b"]) (.link none 3)).name = "b" ∧
    (fs_extract wRepo (["r"] ++ ["b"]) (.link none 3)).type_ = NodeType.linkBroken ∧
    (fs_extract wRepo (["r"] ++ ["b"]) (.link none 3)).size SizeCat.total
      = some (naturalsizeH 0) :=
  broken_link_in_traversal wRepo ["r"] 0 (.cons "b" (.link none 3) .nil) none false "b" 3
    SizeCat.total (List.Mem.head _) (by decide) (by decide) (by decide) (by decide)

/-- An annex repository handle that tracks every path, records a
logical size of 1024 bytes and has no content present locally. -/
def aRepo : RepoH :=
  { path := ["r"]
    isAnnex := true
    underAnnex := fun _ => true
    annexSize := fun _ => 1024
    hasContent := fun _ => false
    gitLocalSize := 0
    annexLocalSize := 0
    annexWorktreeSize := 0 }

/-- C8 fails as stated: a broken symbolic link that is annex-tracked
does NOT contribute zero — the containing directory's roll-up reports
the annex-recorded 1024 bytes ("1.0 kB") for it. -/
theorem broken_link_annex_nonzero :
    (fs_traverse aRepo ["r"] (.dir 0 (.cons "b" (.link none 0) .nil)) none false).1.fs.size
        SizeCat.total = some ⟨10, 1⟩ ∧
    typeOf (.link none 0) = NodeType.linkBroken ∧
    (⟨10, 1⟩ : HSize) ≠ naturalsizeH 0 := by
  refine ⟨?_, rfl, ?_⟩
  · simp [fs_traverse, travLoop, updateLastSize, rollupMaps, fsSize,
      fs_extract, typeOf, ignored, hiddenName, isDirGit, isDirGitAnnex, gitAnnexEntry,
      FsEnts.findEnt, machinesizeOptD, aRepo, naturalsizeH_zero, machinesizeH_zero,
      naturalsizeH_kib, machinesizeH_kib, mtimeOf, leafName]
  · rw [naturalsizeH_zero]
    decide

theorem machinesizeOptD_nonneg (o : Option HSize) : 0 ≤ machinesizeOptD o := by
  cases o with
  | none => simp [machinesizeOptD]
  | some h => simpa [machinesizeOptD] using machinesizeH_nonneg h

theorem foldl_machinesize_nonneg (c : SizeCat) :
    ∀ (ms : List (SizeCat → Option HSize)) (a : ℚ), 0 ≤ a →
      0 ≤ ms.foldl (fun a m => a + machinesizeOptD (m c)) a
  | [], a, ha => ha
  | m :: rest, a, ha => by
      simp only [List.foldl_cons]
      apply foldl_machinesize_nonneg c rest
      have := machinesizeOptD_nonneg (m c)
      linarith

theorem fsSize_nonneg (repo : RepoH) (path : List String) (t : FsTree) (c : SizeCat) :
    0 ≤ fsSize repo path t c := by
  unfold fsSize
  cases t with
  | file sz mt =>
      split_ifs <;> cases c <;> simp
  | link tgt mt =>
      cases tgt <;> split_ifs <;> cases c <;> simp
  | dir mt es =>
      split_ifs <;> cases c <;> simp

/-- Every size value in the record returned by `fs_traverse` is the
humanization of some nonnegative quantity (an extracted `lstat`/annex
size, or a rolled-up sum). -/
theorem fs_traverse_size_image (repo : RepoH) (path : List String) (t : FsTree)
    (parent : Option FsRec) (rc : Bool) (c : SizeCat) (h : HSize)
    (heq : (fs_traverse repo path t parent rc).1.fs.size c = some h) :
    ∃ b : ℚ, 0 ≤ b ∧ h = naturalsizeH b := by
  cases t with
  | dir mt es =>
      have hsz : (fs_traverse repo path (.dir mt es) parent rc).1.fs.size
          = rollupMaps (((travLoop repo path rc es
              (fs_extract repo path (.dir mt es), [])).2).map (fun r => r.size)) := by
        cases parent <;> rfl
      rw [hsz] at heq
      unfold rollupMaps at heq
      split_ifs at heq with hall
      exact ⟨_, foldl_machinesize_nonneg c _ 0 le_rfl, (Option.some.inj heq).symm⟩
  | file sz mt =>
      refine ⟨fsSize repo path (.file sz mt) c, fsSize_nonneg _ _ _ _, ?_⟩
      have : (fs_traverse repo path (.file sz mt) parent rc).1.fs.size c
          = some (naturalsizeH (fsSize repo path (.file sz mt) c)) := rfl
      rw [this] at heq
      exact (Option.some.inj heq).symm
  | link tgt mt =>
      refine ⟨fsSize repo path (.link tgt mt) c, fsSize_nonneg _ _ _ _, ?_⟩
      have : (fs_traverse repo path (.link tgt mt) parent rc).1.fs.size c
          = some (naturalsizeH (fsSize repo path (.link tgt mt) c)) := rfl
      rw [this] at heq
      exact (Option.some.inj heq).symm

/-- C7: with `allSubdatasets=false`, `_ds_traverse` reports an
aggregate size that machine-equals (category-wise) the dataset's own
file-tree size as computed by `fs_traverse`; the sub-datasets on disk
contribute nothing — the result is literally invariant under replacing
the sub-dataset list by the empty one. -/
theorem ds_traverse_no_subdatasets (p : List String) (repo : RepoH) (tree : FsTree)
    (subs : DSList) (parent : Option DS) (rc : Bool) :
    (∀ c, ((ds_traverse (.mk p repo tree subs) parent rc false).fs.size c).map machinesizeH
      = (((fs_traverse repo p tree
            (parent.map (fun q => fs_extract q.repo q.path q.tree)) rc).1.fs.size c).map
          machinesizeH)) ∧
    ds_traverse (.mk p repo tree subs) parent rc false
      = ds_traverse (.mk p repo tree .nil) parent rc false := by
  constructor
  · intro c
    have hd : (ds_traverse (.mk p repo tree subs) parent rc false).fs.size
        = rollupMaps [(fs_traverse repo p tree
            (parent.map (fun q => fs_extract q.repo q.path q.tree)) rc).1.fs.size] := rfl
    rw [hd]
    cases hmc : (fs_traverse repo p tree
        (parent.map (fun q => fs_extract q.repo q.path q.tree)) rc).1.fs.size c with
    | none => simp [rollupMaps, hmc]
    | some h =>
        rcases fs_traverse_size_image repo p tree _ rc c h hmc with ⟨b, hb, hbh⟩
        have hst := machinesizeH_naturalsizeH_stable b hb
        simp [rollupMaps, hmc, machinesizeOptD, hbh, hst]
  · rfl

/-- C9: during the flat dataset listing, an exception raised while
formatting one entry (any of the branch/describe/date/clean/size
properties) is caught by `format_ds_model` and replaced by the inline
error template — the padded path followed by the exception message —
and the listing still emits exactly one line per entry, every line
computed from its own model only, so siblings are unaffected. -/
theorem ls_dataset_error_isolation (ms : List DsModelE) (fast all : Bool)
    (i : ℕ) (hi : i < ms.length) (e : String)
    (hex : ms[i].existsPath = true)
    (hrepo : ms[i].repoPresent = true)
    (herr : formatFields ((ms.map (fun m => m.path.length)).foldr max 0) ms[i] fast all
      = .error e) :
    (ls_dataset ms fast all).length = ms.length ∧
    (ls_dataset ms fast all)[i]?
      = some (formatExcLine ((ms.map (fun m => m.path.length)).foldr max 0) ms[i] e) ∧
    ∀ j : ℕ, (ls_dataset ms fast all)[j]?
      = (ms[j]?).map (fun m =>
          format_ds_model ((ms.map (fun m2 => m2.path.length)).foldr max 0) m fast all) := by
  refine ⟨by simp [ls_dataset], ?_, ?_⟩
  · have hm : (ls_dataset ms fast all)[i]? = (ms[i]?).map (fun m =>
        format_ds_model ((ms.map (fun m2 => m2.path.length)).foldr max 0) m fast all) := by
      simp [ls_dataset]
    rw [hm, List.getElem?_eq_getElem hi]
    simp [format_ds_model, hex, hrepo, herr]
  · intro j
    simp [ls_dataset]

/-- A healthy listing entry. -/
def okModel : DsModelE :=
  { path := "ds"
    existsPath := true
    repoPresent := true
    type_ := "git"
    branch := .ok (some "master")
    describe := .ok none
    date := .ok (some 5)
    clean := .ok true
    annexLocalSize := .ok 0
    annexWorktreeSize := .ok 0 }

/-- An entry whose branch computation raises. -/
def badModel : DsModelE :=
  { path := "ds/sub"
    existsPath := true
    repoPresent := true
    type_ := "annex"
    branch := .error "CommandError"
    describe := .ok none
    date := .ok none
    clean := .ok true
    annexLocalSize := .ok 0
    annexWorktreeSize := .ok 0 }

theorem ls_dataset_error_isolation_witness :
    (ls_dataset [okModel, badModel] true false)[1]?
      = some (formatExcLine (([okModel, badModel].map (fun m => m.path.length)).foldr max 0)
          ([okModel, badModel])[1] "CommandError") :=
  (ls_dataset_error_isolation [okModel, badModel] true false 1 (by norm_num) "CommandError"
    rfl rfl rfl).2.1
